import Mathlib

set_option autoImplicit false

/-!
Verification of the inline-void rich-text editor core (src/src/App.js).

The file shallowly embeds the document model and the operations the program
builds on top of the Slate editing library:

* a document tree of elements and text leaves (`SNode`), with the editor root
  modelled as an element whose `ty` is `"editor"`;
* the plugin normalization rule of `withInlineVoid.normalizeNode`
  (App.js lines 61-94), which inserts zero-width-character text leaves around
  `"inlineVoid"` elements, together with the base editor rules it falls back to
  (children of a void/empty element, block/inline child consistency, inline
  nodes surrounded by texts, merging and removal of adjacent text leaves);
* a fuel-driven driver `normalize` that repeatedly applies the first applicable
  repair until no rule fires (`isNormal`), mirroring `Editor.normalize` with
  `force: true`, which pops dirty paths children-first so that the plugin rule
  for an inline void runs before the base rules of its parent entry;
* an entry-level model `withInlineVoidNormalizeNode` of the plugin function
  itself, parameterised by the base `normalizeNode` it wraps;
* the mark query/toggle logic `isMarkActive`, `toggleMark` (App.js lines
  167-188) over selections modelled as the list of covered text leaves, with
  JavaScript values modelled by `JSVal` so that truthiness is explicit;
* the block query/toggle logic `isBlockActive`, `toggleBlock` (App.js lines
  148-165 and 177-183), the former over a path-addressed node iteration
  following Slate's `Path.compare` range semantics, the latter as the sequence
  of transform calls it issues.
-/

namespace InlineVoidApp

/-- The zero-width character constant (App.js line 15). -/
def zeroWidthChar : String := "\uFEFF"

mutual
/-- Document nodes: text leaves carry their string and mark properties,
elements carry a `type` tag and children.  The editor root is the element with
type `"editor"`. -/
inductive SNode where
  | text (s : String) (marks : List (String × Bool))
  | element (ty : String) (children : SNodeList)
inductive SNodeList where
  | nil
  | cons (head : SNode) (tail : SNodeList)
end

/-- Build a child list from a `List` literal. -/
def SNodeList.ofList : List SNode → SNodeList
  | [] => .nil
  | c :: cs => .cons c (SNodeList.ofList cs)

def SNodeList.length : SNodeList → Nat
  | .nil => 0
  | .cons _ cs => cs.length + 1

def SNodeList.get? : SNodeList → Nat → Option SNode
  | .nil, _ => none
  | .cons c _, 0 => some c
  | .cons _ cs, i + 1 => cs.get? i

/-- Splice a node into a child list at an index (Slate's `insertNodes` at a
path addresses the parent's child list this way).  Out-of-range indices leave
the list unchanged (Slate would throw; no claim exercises that case). -/
def SNodeList.insertAt : SNodeList → Nat → SNode → SNodeList
  | cs, 0, n => .cons n cs
  | .nil, _ + 1, _ => .nil
  | .cons c cs, i + 1, n => .cons c (cs.insertAt i n)

def isText : SNode → Bool
  | .text _ _ => true
  | .element _ _ => false

/-- Embeds `editor.isInline`: only `"inlineVoid"` elements are inline; the base
editor's `isInline` returns false (App.js lines 57-59). -/
def isInlineEl : SNode → Bool
  | .element ty _ => ty == "inlineVoid"
  | .text _ _ => false

/-- Embeds `editor.isVoid`: only `"inlineVoid"` elements are void (App.js lines 53-55). -/
def isVoidEl : SNode → Bool
  | .element ty _ => ty == "inlineVoid"
  | .text _ _ => false

def isInlineOrText (n : SNode) : Bool := isText n || isInlineEl n

/-- The zero-width marker leaf `{ text: zeroWidthChar }` the plugin inserts. -/
def zwText : SNode := .text zeroWidthChar []

/-- The empty text leaf `{ text: "" }` the base editor inserts. -/
def emptyText : SNode := .text "" []

/-! ### The plugin rule (App.js lines 61-94), viewed from the parent

For an entry `[node, path]` with `node.type === "inlineVoid"` the plugin
inserts a zero-width leaf after the node when it is the last child, and before
it when it is the first child or its previous sibling is also an inline void.
Both conditions are conditions on the parent's child list, so applicability is
expressed as a scan over that list. -/

/-- Does some child trigger the plugin's left insertion?  `prevVoid` records
whether the previous sibling is an inline void; at the head of the scan it is
`true`, encoding `isFirstChild`. -/
def hasVoidNeedingLeftMark (prevVoid : Bool) : SNodeList → Bool
  | .nil => false
  | .cons c rest => (isInlineEl c && prevVoid) || hasVoidNeedingLeftMark (isInlineEl c) rest

/-- Insert a zero-width leaf before the first child triggering the plugin's
left insertion. -/
def insertLeftMark (prevVoid : Bool) : SNodeList → SNodeList
  | .nil => .nil
  | .cons c rest =>
    if isInlineEl c && prevVoid then .cons zwText (.cons c rest)
    else .cons c (insertLeftMark (isInlineEl c) rest)

/-- Is the last child an inline void element (the plugin's `islastChild`
condition, and also the base editor's trailing-inline condition)? -/
def lastIsInlineEl : SNodeList → Bool
  | .nil => false
  | .cons c .nil => isInlineEl c
  | .cons _ (.cons c rest) => lastIsInlineEl (.cons c rest)

def SNodeList.append : SNodeList → SNodeList → SNodeList
  | .nil, ds => ds
  | .cons c cs, ds => .cons c (cs.append ds)

/-! ### The base editor rules the plugin falls back to

`normalizeNode(entry)` at the end of the plugin (App.js line 93) delegates to
the built-in editor normalization: force a text child into childless nodes,
remove children whose block/inline category disagrees with the parent's,
surround inline elements with text leaves, and merge or drop adjacent text
leaves. -/

/-- Should this element's children be inline/text content?  The editor root
never has inline children; otherwise the node itself being inline, an empty
child list, or a leading text/inline child decides it. -/
def shouldHaveInlines (ty : String) (cs : SNodeList) : Bool :=
  if ty == "editor" then false
  else
    ty == "inlineVoid" ||
      (match cs with
       | .nil => true
       | .cons c _ => isInlineOrText c)

/-- All children agree with the parent's inline/block category. -/
def catOk (shi : Bool) : SNodeList → Bool
  | .nil => true
  | .cons c rest => (isInlineOrText c == shi) && catOk shi rest

/-- Remove the first child whose category disagrees with the parent's. -/
def removeFirstBadCat (shi : Bool) : SNodeList → SNodeList
  | .nil => .nil
  | .cons c rest =>
    if isInlineOrText c != shi then rest else .cons c (removeFirstBadCat shi rest)

/-- Does some inline element child lack a text leaf directly before it
(`prev == null || !Text.isText(prev)` in the base rule)? -/
def hasInlineNeedingLeftPad (prevText : Bool) : SNodeList → Bool
  | .nil => false
  | .cons c rest => (isInlineEl c && !prevText) || hasInlineNeedingLeftPad (isText c) rest

/-- Insert an empty text leaf before the first inline element child lacking a
preceding text leaf. -/
def insertLeftPad (prevText : Bool) : SNodeList → SNodeList
  | .nil => .nil
  | .cons c rest =>
    if isInlineEl c && !prevText then .cons emptyText (.cons c rest)
    else .cons c (insertLeftPad (isText c) rest)

/-- Does the text-merging rule fire for some adjacent pair of text leaves?  It
fires when the mark properties agree (loose equality) or either string is
empty. -/
def mergeApplicable : SNodeList → Bool
  | .cons (.text s1 m1) (.cons (.text s2 m2) rest) =>
    (m1 == m2 || s1 == "" || s2 == "") || mergeApplicable (.cons (.text s2 m2) rest)
  | .cons _ rest => mergeApplicable rest
  | .nil => false

/-- Apply the text-merging rule at the first applicable adjacent pair: merge
when the properties agree, else drop whichever of the two is empty. -/
def applyMerge : SNodeList → SNodeList
  | .cons (.text s1 m1) (.cons (.text s2 m2) rest) =>
    if m1 == m2 then .cons (.text (s1 ++ s2) m1) rest
    else if s1 == "" then .cons (.text s2 m2) rest
    else if s2 == "" then .cons (.text s1 m1) rest
    else .cons (.text s1 m1) (applyMerge (.cons (.text s2 m2) rest))
  | .cons c rest => .cons c (applyMerge rest)
  | .nil => .nil

/-- No rule (plugin or base) applies at this element's child list. -/
def localNormal (ty : String) (cs : SNodeList) : Bool :=
  (match cs with | .nil => false | .cons _ _ => true) &&
  !hasVoidNeedingLeftMark true cs &&
  !lastIsInlineEl cs &&
  catOk (shouldHaveInlines ty cs) cs &&
  !hasInlineNeedingLeftPad false cs &&
  !mergeApplicable cs

/-- Apply the first applicable repair at this element's child list.  The
plugin rules come first: `Editor.normalize` pops dirty paths children-first,
so the plugin runs at each inline void's own entry before the base rules run
at the parent's entry. -/
def fixLocal (ty : String) (cs : SNodeList) : SNodeList :=
  match cs with
  | .nil => .cons emptyText .nil
  | .cons _ _ =>
    if hasVoidNeedingLeftMark true cs then insertLeftMark true cs
    else if lastIsInlineEl cs then cs.append (.cons zwText .nil)
    else if !catOk (shouldHaveInlines ty cs) cs then
      removeFirstBadCat (shouldHaveInlines ty cs) cs
    else if hasInlineNeedingLeftPad false cs then insertLeftPad false cs
    else if mergeApplicable cs then applyMerge cs
    else cs

mutual
/-- The whole tree is normalized: no rule applies anywhere. -/
def isNormal : SNode → Bool
  | .text _ _ => true
  | .element ty cs => localNormal ty cs && childrenNormal cs
def childrenNormal : SNodeList → Bool
  | .nil => true
  | .cons c cs => isNormal c && childrenNormal cs
end

mutual
/-- One round of repairs: fix every non-normal child subtree, or, when the
children are all normal, apply the first applicable repair at this element. -/
def normStep : SNode → SNode
  | .text s m => .text s m
  | .element ty cs =>
    if childrenNormal cs then .element ty (fixLocal ty cs)
    else .element ty (normStepList cs)
def normStepList : SNodeList → SNodeList
  | .nil => .nil
  | .cons c cs => .cons (if isNormal c then c else normStep c) (normStepList cs)
end

/-- The full normalization pass: repeat `normStep` until no rule applies (the
pass has completed) or the fuel runs out. -/
def normalize : Nat → SNode → SNode
  | 0, t => t
  | fuel + 1, t => if isNormal t then t else normalize fuel (normStep t)

/-! ### The plugin `normalizeNode` function at entry level (App.js lines 61-94)

`withInlineVoidNormalizeNode` models the function installed by `withInlineVoid`
on a single entry `[node, path]`, parameterised by the base `normalizeNode` it
wraps.  When the node at the entry's path is not an `"inlineVoid"` element the
plugin code is skipped entirely and only the base function runs. -/

/-- Resolve the node at a path (`Node.get`). -/
def nodeAt : SNode → List Nat → Option SNode
  | t, [] => some t
  | .text _ _, _ :: _ => none
  | .element _ cs, i :: rest =>
    match cs.get? i with
    | none => none
    | some c => nodeAt c rest

/-- The `type` tag of the node at a path, `none` when the path misses or hits
a text leaf (whose `type` is `undefined` in JavaScript). -/
def typeAt (t : SNode) (p : List Nat) : Option String :=
  match nodeAt t p with
  | some (.element ty _) => some ty
  | _ => none

/-- Replace the child at an index (out of range: unchanged). -/
def SNodeList.set : SNodeList → Nat → SNode → SNodeList
  | .nil, _, _ => .nil
  | .cons _ cs, 0, n => .cons n cs
  | .cons c cs, i + 1, n => .cons c (cs.set i n)

/-- Embeds `Transforms.insertNodes` at a path: splice `n` into the
child list of the path's parent at the path's last index. -/
def insertNodeAt : SNode → List Nat → SNode → SNode
  | t, [], _ => t
  | .text s m, _ :: _, _ => .text s m
  | .element ty cs, [i], n => .element ty (cs.insertAt i n)
  | .element ty cs, i :: j :: rest, n =>
    match cs.get? i with
    | none => .element ty cs
    | some c => .element ty (cs.set i (insertNodeAt c (j :: rest) n))

/-- The plugin-specific part of `normalizeNode`: the body of the
`node.type === "inlineVoid"` conditional (App.js lines 64-90).  `isFirstChild`,
`islastChild` and the next path are computed before either insertion, exactly
as in the source; the insertion after the node happens first, then the
insertion before it. -/
def inlineVoidEntryFix (doc : SNode) (path : List Nat) : SNode :=
  if typeAt doc path = some "inlineVoid" then
    match path.getLast? with
    | none => doc
    | some last =>
      let pp := path.dropLast
      let isFirstChild := last == 0
      let parentLen :=
        match nodeAt doc pp with
        | some (.element _ cs) => cs.length
        | _ => 0
      let islastChild := last + 1 == parentLen
      let hasPreviousAdjacentInlineVoid := !isFirstChild &&
        (match nodeAt doc (pp ++ [last - 1]) with
         | some (.element ty _) => ty == "inlineVoid"
         | _ => false)
      let doc1 := if islastChild then insertNodeAt doc (pp ++ [last + 1]) zwText else doc
      if isFirstChild || hasPreviousAdjacentInlineVoid then
        insertNodeAt doc1 (pp ++ [last]) zwText
      else doc1
  else doc

/-- The full plugin `normalizeNode`: run the inline-void fix, then fall back to
the wrapped base `normalizeNode` on the original entry (App.js line 93). -/
def withInlineVoidNormalizeNode (base : SNode → List Nat → SNode)
    (doc : SNode) (path : List Nat) : SNode :=
  base (inlineVoidEntryFix doc path) path

/-! ### JavaScript values and the mark model (App.js lines 167-188)

`Editor.marks` returns `null` without a selection, and otherwise the mark
properties of the first text leaf the selection touches.  The editor state is
modelled by the list of text leaves the selection covers (`none` when there is
no selection); mark properties map names to arbitrary JavaScript values so
that `marks[format] === true` and truthiness are distinguishable. -/

/-- A fragment of JavaScript values, enough to express mark properties. -/
inductive JSVal where
  | undefined
  | null
  | boolVal (b : Bool)
  | numVal (n : Int)
  | strVal (s : String)
deriving DecidableEq

/-- JavaScript truthiness. -/
def truthy : JSVal → Bool
  | .undefined => false
  | .null => false
  | .boolVal b => b
  | .numVal n => n != 0
  | .strVal s => s != ""

/-- A mark-property record: name/value pairs, first binding wins. -/
abbrev Marks := List (String × JSVal)

/-- Property lookup: `m[key]`, `undefined` when absent. -/
def getProp : Marks → String → JSVal
  | [], _ => .undefined
  | (k, v) :: rest, key => if k == key then v else getProp rest key

/-- Set a property (replace an existing binding or append). -/
def setProp : Marks → String → JSVal → Marks
  | [], k, v => [(k, v)]
  | (k', v') :: rest, k, v =>
    if k' == k then (k, v) :: rest else (k', v') :: setProp rest k v

/-- Delete a property. -/
def removeProp : Marks → String → Marks
  | [], _ => []
  | (k', v') :: rest, k =>
    if k' == k then removeProp rest k else (k', v') :: removeProp rest k

/-- A text leaf as seen by the mark logic. -/
structure MLeaf where
  str : String
  marks : Marks
deriving DecidableEq

/-- Editor state for the mark logic: the text leaves covered by the current
selection in document order, `none` when there is no selection. -/
structure MEditor where
  selection : Option (List MLeaf)
deriving DecidableEq

/-- Embeds `Editor.marks`: `null` without a selection, otherwise the marks of the
first covered leaf (an empty record when the selection covers no leaf). -/
def editorMarks (e : MEditor) : Option Marks :=
  match e.selection with
  | none => none
  | some [] => some []
  | some (l :: _) => some l.marks

/-- Embeds `isMarkActive` (App.js lines 185-188):
`marks ? marks[format] === true : false`. -/
def isMarkActive (e : MEditor) (format : String) : Bool :=
  match editorMarks e with
  | none => false
  | some m => getProp m format == JSVal.boolVal true

/-- Embeds `Editor.addMark` with value `true`: set the mark to `true` on every
covered leaf. -/
def addMark (e : MEditor) (format : String) : MEditor :=
  ⟨e.selection.map (fun ls => ls.map (fun l => ⟨l.str, setProp l.marks format (.boolVal true)⟩))⟩

/-- Embeds `Editor.removeMark`: delete the mark on every covered
leaf. -/
def removeMark (e : MEditor) (format : String) : MEditor :=
  ⟨e.selection.map (fun ls => ls.map (fun l => ⟨l.str, removeProp l.marks format⟩))⟩

/-- Embeds `toggleMark` (App.js lines 167-175). -/
def toggleMark (e : MEditor) (format : String) : MEditor :=
  if isMarkActive e format then removeMark e format else addMark e format

/-- The effective boolean state of a mark on one leaf: whether its value is
exactly the boolean `true`, which is what both `isMarkActive` and rendering
(`leaf.bold`) test. -/
def leafActive (l : MLeaf) (format : String) : Bool :=
  getProp l.marks format == JSVal.boolVal true

/-! ### Block toggling (App.js lines 148-165)

`toggleBlock` only issues calls into the Slate transform API; it is embedded
as the sequence of transform calls it performs, given the result of the
`isBlockActive` query it makes first (line 149). -/

/-- The transform calls `toggleBlock` can issue, with the arguments that
matter: which element types the unwrap matches and whether it splits, the new
`type` set on matched blocks, and the `type` of a wrapping element. -/
inductive SlateOp where
  | unwrapNodes (matchTypes : List String) (split : Bool)
  | setNodes (newType : String)
  | wrapNodes (blockType : String)
deriving DecidableEq

/-- Embeds `LIST_TYPES` (App.js line 24). -/
def LIST_TYPES : List String := ["numbered-list", "bulleted-list"]

/-- Embeds `toggleBlock` (App.js lines 148-165) as its sequence of transform calls:
always unwrap list containers with `split: true`, then set the node type, and
wrap in a new list container when a previously inactive list type was
requested. -/
def toggleBlock (isActive : Bool) (format : String) : List SlateOp :=
  let isList := LIST_TYPES.contains format
  [SlateOp.unwrapNodes LIST_TYPES true,
   SlateOp.setNodes (if isActive then "paragraph" else if isList then "list-item" else format)]
    ++ (if !isActive && isList then [SlateOp.wrapNodes format] else [])

/-- Modelled from the spec: the transform sequence section 4.4 prescribes for
`toggleBlock` — first the split unwrap of list containers, then retyping to
`paragraph` on toggle-off, to `list-item` when entering a list type, and to
the target type otherwise, and finally the wrap when a list type is being
entered. -/
def toggleBlockSpec (isActive : Bool) (format : String) : List SlateOp :=
  let entersList := !isActive && LIST_TYPES.contains format
  [SlateOp.unwrapNodes LIST_TYPES true] ++
    [SlateOp.setNodes
      (if isActive then "paragraph" else if entersList then "list-item" else format)] ++
    (if entersList then [SlateOp.wrapNodes format] else [])

/-! ### Block query (App.js lines 177-183)

`isBlockActive` destructures the first entry of `Editor.nodes` with a type
match over the current selection.  `Editor.nodes` yields every entry of the
editor whose path lies in the selection range under Slate's `Path.compare`,
which treats an ancestor and its descendant as equal — so the entries are
exactly the ancestor-or-self nodes of the selected region.  The editor root
itself is yielded with an `undefined` type. -/

mutual
/-- Pre-order entries `(type?, path)` of a node's subtree. -/
def nodeEntries : SNode → List Nat → List (Option String × List Nat)
  | .text _ _, p => [(none, p)]
  | .element ty cs, p => (some ty, p) :: listEntries cs p 0
def listEntries : SNodeList → List Nat → Nat → List (Option String × List Nat)
  | .nil, _, _ => []
  | .cons c cs, p, i => nodeEntries c (p ++ [i]) ++ listEntries cs p (i + 1)
end

/-- All entries of the editor: the root itself (whose `type` is `undefined`)
followed by its subtree, with paths. -/
def editorEntries (root : SNode) : List (Option String × List Nat) :=
  match root with
  | .text _ _ => [(none, [])]
  | .element _ cs => (none, []) :: listEntries cs [] 0

/-- Slate's `Path.compare`: lexicographic on the common prefix; a path and any
of its ancestors compare equal. -/
def pathCompare : List Nat → List Nat → Ordering
  | [], _ => .eq
  | _ :: _, [] => .eq
  | a :: as, b :: bs => if a < b then .lt else if b < a then .gt else pathCompare as bs

/-- Membership of a path in the range spanned by the anchor and focus paths
(direction-agnostic). -/
def inRange (p a f : List Nat) : Bool :=
  let s := if pathCompare a f == Ordering.gt then f else a
  let e := if pathCompare a f == Ordering.gt then a else f
  pathCompare p s != Ordering.lt && pathCompare p e != Ordering.gt

/-- Embeds `isBlockActive` (App.js lines 177-183): take the first entry of
`Editor.nodes` over the selection matching `n.type === format` and test its
existence; without a selection `Editor.nodes` yields nothing. -/
def isBlockActive (root : SNode) (sel : Option (List Nat × List Nat))
    (format : String) : Bool :=
  match sel with
  | none => false
  | some (a, f) =>
    ((editorEntries root).filter
        (fun en => inRange en.2 a f && en.1 == some format)).head?.isSome

/-! ### Concrete documents -/

/-- One paragraph of `initialValue` (App.js lines 268-287):
`[Text("Some text "), VoidInline, Text(" more text "), VoidInline]`. -/
def initialParagraph : SNode := .element "paragraph" (SNodeList.ofList
  [ .text "Some text " [],
    .element "inlineVoid" (SNodeList.ofList [.text "" []]),
    .text " more text " [],
    .element "inlineVoid" (SNodeList.ofList [.text "" []]) ])

/-- Embeds `initialValue` (App.js lines 268-287): two such paragraphs under the
editor root. -/
def initialValue : SNode :=
  .element "editor" (SNodeList.ofList [initialParagraph, initialParagraph])

/-- The paragraph after normalization: the original four children plus a
zero-width marker directly after the final inline void. -/
def initialParagraphNormalized : SNode := .element "paragraph" (SNodeList.ofList
  [ .text "Some text " [],
    .element "inlineVoid" (SNodeList.ofList [.text "" []]),
    .text " more text " [],
    .element "inlineVoid" (SNodeList.ofList [.text "" []]),
    zwText ])

/-- A document whose single paragraph has one inline void as its only child —
the void is both first and last child. -/
def soleVoidDoc : SNode := .element "editor" (SNodeList.ofList
  [ .element "paragraph" (SNodeList.ofList
      [ .element "inlineVoid" (SNodeList.ofList [.text "" []]) ]) ])

/-- The normalized form of `soleVoidDoc`: two distinct zero-width marker
leaves, one before and one after the void. -/
def soleVoidDocNormalized : SNode := .element "editor" (SNodeList.ofList
  [ .element "paragraph" (SNodeList.ofList
      [ zwText,
        .element "inlineVoid" (SNodeList.ofList [.text "" []]),
        zwText ]) ])

/-- A document whose single paragraph holds two adjacent inline voids with no
separating text leaf. -/
def adjacentVoidsDoc : SNode := .element "editor" (SNodeList.ofList
  [ .element "paragraph" (SNodeList.ofList
      [ .element "inlineVoid" (SNodeList.ofList [.text "" []]),
        .element "inlineVoid" (SNodeList.ofList [.text "" []]) ]) ])

/-- The normalized form of `adjacentVoidsDoc`: a zero-width marker sits
between the two voids (and at both ends). -/
def adjacentVoidsDocNormalized : SNode := .element "editor" (SNodeList.ofList
  [ .element "paragraph" (SNodeList.ofList
      [ zwText,
        .element "inlineVoid" (SNodeList.ofList [.text "" []]),
        zwText,
        .element "inlineVoid" (SNodeList.ofList [.text "" []]),
        zwText ]) ])

/-! ### Idempotence at fixed point -/

theorem localNormal_fixLocal {ty : String} {cs : SNodeList}
    (h : localNormal ty cs = true) : fixLocal ty cs = cs := by
  match cs with
  | .nil => simp [localNormal] at h
  | .cons c rest =>
    simp only [localNormal, Bool.and_eq_true, Bool.not_eq_true'] at h
    obtain ⟨⟨⟨⟨⟨-, h1⟩, h2⟩, h3⟩, h4⟩, h5⟩ := h
    simp [fixLocal, h1, h2, h3, h4, h5]

theorem childrenNormal_normStepList : ∀ {cs : SNodeList},
    childrenNormal cs = true → normStepList cs = cs
  | .nil, _ => rfl
  | .cons c rest, h => by
    simp only [childrenNormal, Bool.and_eq_true] at h
    simp [normStepList, h.1, childrenNormal_normStepList h.2]

/-- C2: normalization is idempotent at fixed point — on an already-normalized
tree one round of repairs changes nothing and the full pass returns the tree
unchanged, for any fuel. -/
theorem normalize_idempotent_at_fixed_point (t : SNode) (fuel : Nat)
    (h : isNormal t = true) : normStep t = t ∧ normalize fuel t = t := by
  constructor
  · match t with
    | .text s m => rfl
    | .element ty cs =>
      simp only [isNormal, Bool.and_eq_true] at h
      simp [normStep, h.2, localNormal_fixLocal h.1]
  · match fuel with
    | 0 => rfl
    | fuel + 1 => simp [normalize, h]

/-- Witness for C2 at the normalized initial document. -/
theorem normalize_idempotent_witness :
    normStep (.element "editor"
        (SNodeList.ofList [initialParagraphNormalized, initialParagraphNormalized])) =
      .element "editor"
        (SNodeList.ofList [initialParagraphNormalized, initialParagraphNormalized]) ∧
    normalize 5 (.element "editor"
        (SNodeList.ofList [initialParagraphNormalized, initialParagraphNormalized])) =
      .element "editor"
        (SNodeList.ofList [initialParagraphNormalized, initialParagraphNormalized]) :=
  normalize_idempotent_at_fixed_point _ 5 (by rfl)

/-- C3: normalizing the initial document yields two paragraphs of exactly five
children; the added fifth child is the zero-width marker leaf directly after
the final inline void. -/
theorem normalize_initialValue :
    normalize 10 initialValue =
      .element "editor"
        (SNodeList.ofList [initialParagraphNormalized, initialParagraphNormalized]) ∧
    (match initialParagraphNormalized with
     | .element _ cs => cs.length
     | .text _ _ => 0) = 5 ∧
    (match initialParagraphNormalized with
     | .element _ cs => cs.get? 4
     | .text _ _ => none) = some zwText := by
  refine ⟨rfl, rfl, rfl⟩

/-- C4: on a paragraph whose only child is an inline void — first and last
child at once — normalization inserts two distinct zero-width marker leaves,
one before and one after the void, without deduplicating. -/
theorem normalize_soleVoid :
    normalize 10 soleVoidDoc = soleVoidDocNormalized := by rfl

/-! ### The frame property of the plugin normalizeNode -/

/-- C9: on an entry whose node is not an `"inlineVoid"` element the plugin's
`normalizeNode` performs no mutation of its own and coincides with the base
`normalizeNode` it wraps. -/
theorem normalizeNode_frame (base : SNode → List Nat → SNode)
    (doc : SNode) (path : List Nat)
    (h : typeAt doc path ≠ some "inlineVoid") :
    inlineVoidEntryFix doc path = doc ∧
    withInlineVoidNormalizeNode base doc path = base doc path := by
  have h1 : inlineVoidEntryFix doc path = doc := by
    unfold inlineVoidEntryFix
    rw [if_neg h]
  exact ⟨h1, by unfold withInlineVoidNormalizeNode; rw [h1]⟩

/-- Witness for C9 at a paragraph entry of the initial document. -/
theorem normalizeNode_frame_witness :
    inlineVoidEntryFix initialValue [0] = initialValue ∧
    withInlineVoidNormalizeNode (fun d _ => d) initialValue [0] =
      (fun (d : SNode) (_ : List Nat) => d) initialValue [0] :=
  normalizeNode_frame (fun d _ => d) initialValue [0] (by decide)

/-! ### Block toggling -/

/-- C5: `toggleBlock` issues exactly the transform sequence the specification
prescribes — the split unwrap of list containers first, then the retyping to
`paragraph` / `list-item` / the target type, then the wrap into a fresh list
container when a previously inactive list type was requested. -/
theorem toggleBlock_matches_spec (isActive : Bool) (format : String) :
    toggleBlock isActive format = toggleBlockSpec isActive format := by
  cases isActive <;> cases h : LIST_TYPES.contains format <;>
    simp [toggleBlock, toggleBlockSpec, h]

/-! ### Mark queries and toggling -/

/-- C8: `isMarkActive` is total — it always returns a boolean, returns `false`
when `Editor.marks` yields `null` (no selection), and returns `false` when the
lookup finds no binding for the mark name. -/
theorem isMarkActive_total (e : MEditor) (format : String) :
    (isMarkActive e format = true ∨ isMarkActive e format = false) ∧
    (editorMarks e = none → isMarkActive e format = false) ∧
    (∀ m, editorMarks e = some m → getProp m format = JSVal.undefined →
      isMarkActive e format = false) := by
  refine ⟨?_, ?_, ?_⟩
  · cases h : isMarkActive e format
    · exact Or.inr rfl
    · exact Or.inl rfl
  · intro h; simp [isMarkActive, h]
  · intro m hm hv; simp [isMarkActive, hm, hv]

/-- Witness for C8 at the selection-less editor state. -/
theorem isMarkActive_total_witness : isMarkActive ⟨none⟩ "bold" = false :=
  (isMarkActive_total ⟨none⟩ "bold").2.1 rfl

/-- C10: `isMarkActive` answers `true` exactly when the stored value is the
boolean `true`; any truthy value other than `true` yields `false`. -/
theorem isMarkActive_requires_exact_true (e : MEditor) (format : String)
    (m : Marks) (hm : editorMarks e = some m) :
    (isMarkActive e format = true ↔ getProp m format = JSVal.boolVal true) ∧
    (truthy (getProp m format) = true → getProp m format ≠ JSVal.boolVal true →
      isMarkActive e format = false) := by
  constructor
  · simp [isMarkActive, hm]
  · intro _ hne; simp [isMarkActive, hm, hne]

/-- Witness for C10 at a state whose bold mark holds the truthy string
`"yes"`. -/
theorem isMarkActive_requires_exact_true_witness :
    isMarkActive ⟨some [⟨"x", [("bold", JSVal.strVal "yes")]⟩]⟩ "bold" = false :=
  (isMarkActive_requires_exact_true ⟨some [⟨"x", [("bold", JSVal.strVal "yes")]⟩]⟩
      "bold" [("bold", JSVal.strVal "yes")] rfl).2 (by decide) (by decide)

theorem getProp_setProp : ∀ (m : Marks) (k : String) (v : JSVal),
    getProp (setProp m k v) k = v
  | [], k, v => by simp [setProp, getProp]
  | (k1, v1) :: rest, k, v => by
    by_cases h : k1 = k
    · simp [setProp, getProp, h]
    · simp only [setProp, getProp, beq_iff_eq, h, if_false]
      exact getProp_setProp rest k v

theorem getProp_removeProp : ∀ (m : Marks) (k : String),
    getProp (removeProp m k) k = JSVal.undefined
  | [], k => rfl
  | (k1, v1) :: rest, k => by
    by_cases h : k1 = k
    · simp only [removeProp, beq_iff_eq, h, if_true]
      exact getProp_removeProp rest k
    · simp only [removeProp, beq_iff_eq, h, if_false, getProp]
      exact getProp_removeProp rest k

theorem leafActive_of_mem_map_remove {ls : List MLeaf} {fmt : String} {l' : MLeaf}
    (h : l' ∈ ls.map (fun l => (⟨l.str, removeProp l.marks fmt⟩ : MLeaf))) :
    leafActive l' fmt = false := by
  obtain ⟨l, -, rfl⟩ := List.mem_map.mp h
  simp [leafActive, getProp_removeProp]

theorem leafActive_of_mem_map_set {ls : List MLeaf} {fmt : String} {l' : MLeaf}
    (h : l' ∈ ls.map (fun l => (⟨l.str, setProp l.marks fmt (JSVal.boolVal true)⟩ : MLeaf))) :
    leafActive l' fmt = true := by
  obtain ⟨l, -, rfl⟩ := List.mem_map.mp h
  simp [leafActive, getProp_setProp]

/-- The mixed selection refuting C6 as stated: the anchor leaf is bold, the
second covered leaf is not. -/
def mixedSelection : MEditor :=
  ⟨some [⟨"a", [("bold", JSVal.boolVal true)]⟩, ⟨"b", []⟩]⟩

/-- C6 counterexample: toggling bold twice on the mixed selection does not
restore the original mark state — the second leaf starts without bold and
ends bold. -/
theorem toggleMark_twice_not_restoring :
    toggleMark (toggleMark mixedSelection "bold") "bold" ≠ mixedSelection ∧
    (mixedSelection.selection.getD []).map (fun l => leafActive l "bold") =
      [true, false] ∧
    ((toggleMark (toggleMark mixedSelection "bold") "bold").selection.getD []).map
        (fun l => leafActive l "bold") =
      [true, true] := by
  refine ⟨by decide, rfl, rfl⟩

/-- C6 amended: when every leaf covered by the selection starts with the same
effective bold state, toggling bold twice restores that state on every covered
leaf. -/
theorem toggleMark_twice_restores_uniform (e : MEditor) (b : Bool)
    (huni : ∀ l ∈ e.selection.getD [], leafActive l "bold" = b) :
    ∀ l' ∈ (toggleMark (toggleMark e "bold") "bold").selection.getD [],
      leafActive l' "bold" = b := by
  obtain ⟨sel⟩ := e
  match sel with
  | none => intro l' hl'; simp [toggleMark, isMarkActive, editorMarks, addMark, removeMark] at hl'
  | some [] => intro l' hl'; simp [toggleMark, isMarkActive, editorMarks, addMark, removeMark, getProp] at hl'
  | some (hd :: tl) =>
    have hhd : leafActive hd "bold" = b := huni hd (by simp)
    cases b with
    | false =>
      have h1 : isMarkActive ⟨some (hd :: tl)⟩ "bold" = false := hhd
      have e1 : toggleMark ⟨some (hd :: tl)⟩ "bold" = addMark ⟨some (hd :: tl)⟩ "bold" := by
        unfold toggleMark
        rw [h1, if_neg Bool.false_ne_true]
      have h2 : isMarkActive (addMark ⟨some (hd :: tl)⟩ "bold") "bold" = true := by
        simp [addMark, isMarkActive, editorMarks, getProp_setProp]
      have e2 : toggleMark (addMark ⟨some (hd :: tl)⟩ "bold") "bold" =
          removeMark (addMark ⟨some (hd :: tl)⟩ "bold") "bold" := by
        unfold toggleMark
        rw [h2, if_pos rfl]
      intro l' hl'
      rw [e1, e2] at hl'
      have hmem : l' ∈ ((hd :: tl).map
            (fun l => (⟨l.str, setProp l.marks "bold" (JSVal.boolVal true)⟩ : MLeaf))).map
          (fun l => (⟨l.str, removeProp l.marks "bold"⟩ : MLeaf)) := hl'
      exact leafActive_of_mem_map_remove hmem
    | true =>
      have h1 : isMarkActive ⟨some (hd :: tl)⟩ "bold" = true := hhd
      have e1 : toggleMark ⟨some (hd :: tl)⟩ "bold" = removeMark ⟨some (hd :: tl)⟩ "bold" := by
        unfold toggleMark
        rw [h1, if_pos rfl]
      have h2 : isMarkActive (removeMark ⟨some (hd :: tl)⟩ "bold") "bold" = false := by
        simp [removeMark, isMarkActive, editorMarks, getProp_removeProp]
      have e2 : toggleMark (removeMark ⟨some (hd :: tl)⟩ "bold") "bold" =
          addMark (removeMark ⟨some (hd :: tl)⟩ "bold") "bold" := by
        unfold toggleMark
        rw [h2, if_neg Bool.false_ne_true]
      intro l' hl'
      rw [e1, e2] at hl'
      have hmem : l' ∈ ((hd :: tl).map
            (fun l => (⟨l.str, removeProp l.marks "bold"⟩ : MLeaf))).map
          (fun l => (⟨l.str, setProp l.marks "bold" (JSVal.boolVal true)⟩ : MLeaf)) := hl'
      exact leafActive_of_mem_map_set hmem

/-- Witness for the amended C6 at a uniformly bold one-leaf selection. -/
theorem toggleMark_twice_restores_witness :
    leafActive ⟨"x", [("bold", JSVal.boolVal true)]⟩ "bold" = true :=
  toggleMark_twice_restores_uniform ⟨some [⟨"x", [("bold", JSVal.boolVal true)]⟩]⟩
    true (by decide) ⟨"x", [("bold", JSVal.boolVal true)]⟩ (by decide)

/-! ### Block query -/

/-- C7: `isBlockActive(type)` answers `true` exactly when some entry of the
editor lying in the selection range — an ancestor-or-self node of the selected
region under Slate's path comparison — carries that `type`; without a
selection it answers `false`. -/
theorem isBlockActive_iff (root : SNode) (a f : List Nat) (format : String) :
    isBlockActive root none format = false ∧
    (isBlockActive root (some (a, f)) format = true ↔
      ∃ en ∈ editorEntries root, inRange en.2 a f = true ∧ en.1 = some format) := by
  refine ⟨rfl, ?_⟩
  simp only [isBlockActive]
  rcases hf : (editorEntries root).filter
      (fun en => inRange en.2 a f && en.1 == some format) with _ | ⟨x, xs⟩
  · rw [hf]
    simp only [List.head?_nil, Option.isSome_none]
    constructor
    · intro h
      exact absurd h Bool.false_ne_true
    · rintro ⟨en, hmem, hr, ht⟩
      have hin : en ∈ (editorEntries root).filter
          (fun en => inRange en.2 a f && en.1 == some format) :=
        List.mem_filter.mpr ⟨hmem, by simp [hr, ht]⟩
      rw [hf] at hin
      exact absurd hin (List.not_mem_nil en)
  · rw [hf]
    simp only [List.head?_cons, Option.isSome_some]
    constructor
    · intro _
      have hx : x ∈ (editorEntries root).filter
          (fun en => inRange en.2 a f && en.1 == some format) := by
        rw [hf]
        exact List.mem_cons_self x xs
      have hx2 := List.mem_filter.mp hx
      have hp := hx2.2
      simp only [Bool.and_eq_true, beq_iff_eq] at hp
      exact ⟨x, hx2.1, hp.1, hp.2⟩
    · intro _
      trivial

/-- Witness for C7: no selection yields `false` on the initial document. -/
theorem isBlockActive_iff_witness : isBlockActive initialValue none "paragraph" = false :=
  (isBlockActive_iff initialValue [] [] "paragraph").1

/-! ### The void-adjacency invariant at the normalization fixed point -/

/-- The previous-sibling flag the plugin scan threads: `true` at the list head
(no previous sibling), otherwise whether the previous sibling is an inline
void. -/
def prevVoidFlag : Option SNode → Bool
  | none => true
  | some p => isInlineEl p

/-- Void adjacency along one child list: every inline void child has a text
leaf directly before it and directly after it.  `prev` is the sibling just
before the current sublist (`none` at the start). -/
def adjOk : Option SNode → SNodeList → Bool
  | _, .nil => true
  | prev, .cons c rest =>
    (!isInlineEl c ||
      ((match prev with
        | some p => isText p
        | none => false) &&
       (match rest with
        | .cons r _ => isText r
        | .nil => false))) &&
    adjOk (some c) rest

mutual
/-- Void adjacency over the whole tree: in every element, every inline void
child has a text leaf as its immediately preceding sibling and a text leaf as
its immediately following sibling. -/
def voidAdjacency : SNode → Bool
  | .text _ _ => true
  | .element _ cs => adjOk none cs && childrenAdj cs
def childrenAdj : SNodeList → Bool
  | .nil => true
  | .cons c cs => voidAdjacency c && childrenAdj cs
end

theorem isText_of_category {c : SNode} (h1 : isInlineOrText c = true)
    (h2 : isInlineEl c = false) : isText c = true := by
  cases c <;> simp_all [isInlineOrText, isText, isInlineEl]

theorem adjOk_of_no_inline : ∀ (cs : SNodeList) (prev : Option SNode),
    catOk false cs = true → adjOk prev cs = true
  | .nil, _, _ => rfl
  | .cons c rest, prev, h => by
    simp only [catOk, Bool.and_eq_true, beq_iff_eq] at h
    have hc : isInlineEl c = false := by
      have h1 := h.1
      cases c <;> simp_all [isInlineOrText, isInlineEl, isText]
    simp only [adjOk, hc, Bool.not_false, Bool.true_or, Bool.true_and]
    exact adjOk_of_no_inline rest (some c) h.2

theorem adjOk_of_localRules : ∀ (cs : SNodeList) (prev : Option SNode),
    catOk true cs = true →
    hasVoidNeedingLeftMark (prevVoidFlag prev) cs = false →
    lastIsInlineEl cs = false →
    (∀ p, prev = some p → isInlineOrText p = true) →
    adjOk prev cs = true
  | .nil, _, _, _, _, _ => rfl
  | .cons c rest, prev, hcat, hmark, hlast, hprev => by
    simp only [catOk, Bool.and_eq_true, beq_iff_eq] at hcat
    obtain ⟨hc, hcat2⟩ := hcat
    rw [hasVoidNeedingLeftMark, Bool.or_eq_false_iff] at hmark
    obtain ⟨hmark1, hmark2⟩ := hmark
    cases hcv : isInlineEl c with
    | true =>
      have hpv : prevVoidFlag prev = false := by
        cases hpvv : prevVoidFlag prev
        · rfl
        · rw [hcv, hpvv] at hmark1
          cases hmark1
      cases prev with
      | none =>
        rw [prevVoidFlag] at hpv
        cases hpv
      | some p =>
        have hp_not_inline : isInlineEl p = false := by
          rw [prevVoidFlag] at hpv
          exact hpv
        have hp_text : isText p = true :=
          isText_of_category (hprev p rfl) hp_not_inline
        cases rest with
        | nil =>
          rw [lastIsInlineEl, hcv] at hlast
          cases hlast
        | cons r rest2 =>
          have hr_not_inline : isInlineEl r = false := by
            rw [hasVoidNeedingLeftMark, Bool.or_eq_false_iff] at hmark2
            have h2 := hmark2.1
            rw [hcv, Bool.and_true] at h2
            exact h2
          have hr_cat : isInlineOrText r = true := by
            simp only [catOk, Bool.and_eq_true, beq_iff_eq] at hcat2
            exact hcat2.1
          have hr_text : isText r = true := isText_of_category hr_cat hr_not_inline
          have hrec : adjOk (some c) (.cons r rest2) = true := by
            refine adjOk_of_localRules (.cons r rest2) (some c) hcat2 ?_ ?_ ?_
            · rw [prevVoidFlag]
              exact hmark2
            · rw [lastIsInlineEl] at hlast
              exact hlast
            · intro p' hp'
              cases hp'
              exact hc
          simp only [adjOk, hcv, Bool.not_true, Bool.false_or, hp_text, hr_text,
            Bool.and_true, Bool.true_and]
          exact hrec
    | false =>
      have hrec : adjOk (some c) rest = true := by
        refine adjOk_of_localRules rest (some c) hcat2 ?_ ?_ ?_
        · rw [prevVoidFlag]
          exact hmark2
        · cases rest with
          | nil => rfl
          | cons r rest2 =>
            rw [lastIsInlineEl] at hlast
            exact hlast
        · intro p' hp'
          cases hp'
          exact hc
      simp only [adjOk, hcv, Bool.not_false, Bool.true_or, Bool.true_and]
      exact hrec

theorem localNormal_adjOk {ty : String} {cs : SNodeList}
    (h : localNormal ty cs = true) : adjOk none cs = true := by
  simp only [localNormal, Bool.and_eq_true, Bool.not_eq_true'] at h
  obtain ⟨⟨⟨⟨⟨-, hA⟩, hlast⟩, hcat⟩, -⟩, -⟩ := h
  cases hshi : shouldHaveInlines ty cs with
  | true =>
    refine adjOk_of_localRules cs none ?_ ?_ hlast ?_
    · rw [hshi] at hcat
      exact hcat
    · rw [prevVoidFlag]
      exact hA
    · intro p hp
      exact Option.noConfusion hp
  | false =>
    refine adjOk_of_no_inline cs none ?_
    rw [hshi] at hcat
    exact hcat

theorem isNormal_voidAdjacency_aux : ∀ n : Nat,
    (∀ t : SNode, sizeOf t ≤ n → isNormal t = true → voidAdjacency t = true) ∧
    (∀ cs : SNodeList, sizeOf cs ≤ n → childrenNormal cs = true → childrenAdj cs = true) := by
  intro n
  induction n with
  | zero =>
    constructor
    · intro t ht _
      cases t with
      | text s m => rfl
      | element ty cs =>
        exfalso
        have h1 : sizeOf (SNode.element ty cs) = 1 + sizeOf ty + sizeOf cs :=
          SNode.element.sizeOf_spec ty cs
        omega
    · intro cs hcs _
      cases cs with
      | nil => rfl
      | cons c rest =>
        exfalso
        have h1 : sizeOf (SNodeList.cons c rest) = 1 + sizeOf c + sizeOf rest :=
          SNodeList.cons.sizeOf_spec c rest
        omega
  | succ n ih =>
    constructor
    · intro t ht hn
      cases t with
      | text s m => rfl
      | element ty cs =>
        simp only [isNormal, Bool.and_eq_true] at hn
        have h1 : sizeOf (SNode.element ty cs) = 1 + sizeOf ty + sizeOf cs :=
          SNode.element.sizeOf_spec ty cs
        have hsz : sizeOf cs ≤ n := by omega
        simp only [voidAdjacency, Bool.and_eq_true]
        exact ⟨localNormal_adjOk hn.1, ih.2 cs hsz hn.2⟩
    · intro cs hcs hn
      cases cs with
      | nil => rfl
      | cons c rest =>
        simp only [childrenNormal, Bool.and_eq_true] at hn
        have h1 : sizeOf (SNodeList.cons c rest) = 1 + sizeOf c + sizeOf rest :=
          SNodeList.cons.sizeOf_spec c rest
        have hc : sizeOf c ≤ n := by omega
        have hr : sizeOf rest ≤ n := by omega
        simp only [childrenAdj, Bool.and_eq_true]
        exact ⟨ih.1 c hc hn.1, ih.2 rest hr hn.2⟩

/-- C1: once the normalization pass has completed (no rule applies any more),
every inline void element has a text leaf as its immediately preceding sibling
and a text leaf as its immediately following sibling; and on the concrete
document with two adjacent inline voids and no separating text leaf,
normalization places a zero-width marker leaf between them. -/
theorem normalized_void_adjacency :
    (∀ t : SNode, isNormal t = true → voidAdjacency t = true) ∧
    normalize 10 adjacentVoidsDoc = adjacentVoidsDocNormalized := by
  constructor
  · intro t h
    exact (isNormal_voidAdjacency_aux (sizeOf t)).1 t le_rfl h
  · rfl

/-- Witness for C1 at the normalized adjacent-voids document. -/
theorem normalized_void_adjacency_witness :
    voidAdjacency adjacentVoidsDocNormalized = true :=
  normalized_void_adjacency.1 adjacentVoidsDocNormalized (by rfl)

end InlineVoidApp
